import Mathlib

/-!
Verification development for the BanditLib differential-privacy
partial-sum store (`lib/partial_sums.py`).

The Python module keeps a dictionary from block-start time to
`NoisePartialSum(start, size, noise)` and consolidates it after each
`add` according to a release strategy (`once`, `every`, `sqrt`, `tree`,
`hybrid`); a family of subclasses (`_NoisePartialSumStore`,
`TwoLevelPartialSumStore`, ...) implements the same machinery with an
explicit two-entry store.  The shallow embedding below models:

* the insertion-ordered dictionary as an association list with
  Python-dict semantics (`storeSet` replaces in place or appends,
  `storeDel` removes, `lookupStore` finds);
* the noise generator as a deterministic stream: every random draw
  consumes one index of a counter `ctr`, so `lap scale i` is the value
  of the i-th `laplacian(scale)` draw and `tree eps delta T i` the
  i-th `generate_noise_tree` draw; noise values themselves are `Int`
  (the numpy arrays of the source are summed elementwise, which the
  scalar model captures);
* Python exceptions (`KeyError` from `del`/`[]`, `NotImplementedError`
  from the constructor) as `none` of an `Option` result.

Recursive consolidation (`consolidate_for_tree` / `consolidate_for_hybrid`)
is embedded with an explicit fuel argument; every merge step deletes one
store entry, so fuel `store.length + 1` (what `consolidateStore` passes)
can never run out, mirroring the always-terminating Python recursion.
-/

/-- `NoisePartialSum(start, size, noise)` from the source: an immutable
value object covering `size` steps starting at `start`. -/
structure NoisePartialSum where
  start : Nat
  size : Nat
  noise : Int
deriving DecidableEq, Repr

/-- The store dictionary: association list keyed by block-start time,
in Python-dict insertion order. -/
abbrev Store := List (Nat × NoisePartialSum)

/-- Dictionary read `store[k]`, as an `Option`. -/
def lookupStore (s : Store) (k : Nat) : Option NoisePartialSum :=
  match s with
  | [] => none
  | (k1, v) :: rest => if k1 = k then some v else lookupStore rest k

/-- Dictionary membership test `k in store`. -/
def memStore (s : Store) (k : Nat) : Bool :=
  match s with
  | [] => false
  | (k1, _) :: rest => k1 == k || memStore rest k

/-- Dictionary write `store[k] = v`: replaces in place if the key is
present (keeping insertion order), else appends at the end. -/
def storeSet (s : Store) (k : Nat) (v : NoisePartialSum) : Store :=
  match s with
  | [] => [(k, v)]
  | (k1, v1) :: rest => if k1 = k then (k, v) :: rest else (k1, v1) :: storeSet rest k v

/-- Dictionary delete `del store[k]` (the key-present case). -/
def storeDel (s : Store) (k : Nat) : Store :=
  match s with
  | [] => []
  | (k1, v1) :: rest => if k1 = k then rest else (k1, v1) :: storeDel rest k

/-- The list of keys of a store. -/
def storeKeys (s : Store) : List Nat := s.map Prod.fst

/-- The noise generator interface used by `NoisePartialSumStore`:
configuration `(eps, delta, T, noise_type)` plus the three sampling
entry points, modelled as deterministic streams indexed by a draw
counter.  `lap scale i` embeds `laplacian(scale)`, `lapSens scale sens i`
embeds `laplacian(scale, sens=sens)`, `tree eps delta T i` embeds
`generate_noise_tree(eps, delta, T)`; `zeros()` is the constant `0`. -/
structure NoiseGenerator where
  eps : Rat
  delta : Rat
  T : Nat
  noise_type : String
  lap : Rat → Nat → Int
  lapSens : Rat → Nat → Nat → Int
  tree : Rat → Rat → Nat → Nat → Int

/-- Mutable state of a `NoisePartialSumStore`: the dictionary plus the
number of random draws made so far (the position in the noise stream). -/
structure StoreState where
  store : Store
  ctr : Nat
deriving DecidableEq, Repr

/-- `START_TIME = 1` from the source. -/
def START_TIME : Nat := 1

/-- `is_power_of_two`: `((val & (val - 1)) == 0) and val > 0`. -/
def isPowerOfTwo (val : Nat) : Bool :=
  ((val &&& (val - 1)) == 0) && decide (0 < val)

/-- `consolidate_for_once`: delete the newly added entry unless it is
the one at `START_TIME`. -/
def consolidateForOnce (st : StoreState) (time : Nat) : Option StoreState :=
  if time ≠ START_TIME then
    if memStore st.store time then some ⟨storeDel st.store time, st.ctr⟩ else none
  else some st

/-- `consolidate_for_every`: fold the newly added noise into a single
entry at `START_TIME` of size `time`, then delete the new entry. -/
def consolidateForEvery (st : StoreState) (time : Nat) : Option StoreState :=
  match lookupStore st.store START_TIME with
  | none => none
  | some currentTotal =>
    match lookupStore st.store time with
    | none => none
    | some newlyAdded =>
      let s1 := storeSet st.store START_TIME
        ⟨1, time, currentTotal.noise + newlyAdded.noise⟩
      if time ≠ START_TIME then
        if memStore s1 time then some ⟨storeDel s1 time, st.ctr⟩ else none
      else some ⟨s1, st.ctr⟩

/-- Sequential `del store[k]` over a list of keys, failing (`KeyError`)
if any key is absent; embeds the loop
`for _t in range(block_start, time + 1): del self.store[_t]`. -/
def delKeys : Store → List Nat → Option Store
  | s, [] => some s
  | s, k :: ks => if memStore s k then delKeys (storeDel s k) ks else none

/-- `consolidate_for_sqrt`: when the entry at
`block_start = time - block_size + 1` exists, delete the whole block
`[block_start, time]`, draw one block-level noise at scale `2*eps` and
store it at `START_TIME` (fresh when `block_start == START_TIME`, else
folded into the existing `START_TIME` entry). -/
def consolidateForSqrt (g : NoiseGenerator) (st : StoreState) (time : Nat) :
    Option StoreState :=
  let block_size := Nat.sqrt g.T
  let block_start := time + 1 - block_size
  if memStore st.store block_start then
    match delKeys st.store (List.range' block_start (time + 1 - block_start)) with
    | none => none
    | some s1 =>
      let block_noise := g.lap (2 * g.eps) st.ctr
      if block_start = START_TIME then
        some ⟨storeSet s1 START_TIME ⟨START_TIME, block_size, block_noise⟩, st.ctr + 1⟩
      else
        match lookupStore s1 START_TIME with
        | none => none
        | some e =>
          some ⟨storeSet s1 START_TIME
            ⟨START_TIME, e.size + block_size, e.noise + block_noise⟩, st.ctr + 1⟩
  else some st

/-- `consolidate_for_tree`: recursively merge the entry at `time` with
an equal-sized left neighbour at `prev = start - size`, redrawing the
noise via `generate_noise_tree` at each merge.  `fuel` bounds the
recursion depth; each step deletes one entry, so the
`store.length + 1` fuel supplied by `consolidateStore` never runs out. -/
def consolidateForTree (g : NoiseGenerator) : Nat → StoreState → Nat → Option StoreState
  | 0, _, _ => none
  | fuel + 1, st, time =>
    match lookupStore st.store time with
    | none => none
    | some cur =>
      let prev := cur.start - cur.size
      match lookupStore st.store prev with
      | none => some st
      | some prevPs =>
        if cur.size = prevPs.size then
          let newNoise := g.tree g.eps g.delta g.T st.ctr
          consolidateForTree g fuel
            ⟨storeDel (storeSet st.store prev ⟨prev, cur.size * 2, newNoise⟩) time,
             st.ctr + 1⟩ prev
        else some st

/-- `consolidate_for_hybrid`: at a power-of-two `time > START_TIME`,
collapse the whole store into one entry at `START_TIME` whose noise is
`store[START_TIME].noise + store[time].noise`; otherwise run the tree
merge with horizon `2 ^ int(log2(time))`. -/
def consolidateForHybrid (g : NoiseGenerator) : Nat → StoreState → Nat → Option StoreState
  | 0, _, _ => none
  | fuel + 1, st, time =>
    if isPowerOfTwo time = true ∧ START_TIME < time then
      match lookupStore st.store START_TIME with
      | none => none
      | some s1 =>
        match lookupStore st.store time with
        | none => none
        | some stime =>
          some ⟨[(START_TIME, ⟨START_TIME, time, s1.noise + stime.noise⟩)], st.ctr⟩
    else
      match lookupStore st.store time with
      | none => none
      | some cur =>
        let prev := cur.start - cur.size
        match lookupStore st.store prev with
        | none => some st
        | some prevPs =>
          if cur.size = prevPs.size then
            let newNoise := g.tree g.eps g.delta (2 ^ Nat.log2 time) st.ctr
            consolidateForHybrid g fuel
              ⟨storeDel (storeSet st.store prev ⟨prev, cur.size * 2, newNoise⟩) time,
               st.ctr + 1⟩ prev
          else some st

/-- `consolidate_store`: strategy dispatch. -/
def consolidateStore (g : NoiseGenerator) (method : String) (st : StoreState)
    (time : Nat) : Option StoreState :=
  if method = "once" then consolidateForOnce st time
  else if method = "every" then consolidateForEvery st time
  else if method = "sqrt" then consolidateForSqrt g st time
  else if method = "tree" then consolidateForTree g (st.store.length + 1) st time
  else if method = "hybrid" then consolidateForHybrid g (st.store.length + 1) st time
  else some st

/-- `add_noise(time)`: sample this step's noise according to the
strategy (consuming the draw counter), insert the unit partial sum at
`time` and consolidate. -/
def addNoise (g : NoiseGenerator) (method : String) (st : StoreState) (time : Nat) :
    Option StoreState :=
  let drawn : Int × Nat :=
    if method = "once" then
      if st.store.length = 0 then (g.lap (g.eps / (g.T : Rat)) st.ctr, st.ctr + 1)
      else (0, st.ctr)
    else if method = "every" then (g.lap g.eps st.ctr, st.ctr + 1)
    else if method = "sqrt" then (g.lap g.eps st.ctr, st.ctr + 1)
    else if method = "tree" then (g.tree g.eps g.delta g.T st.ctr, st.ctr + 1)
    else if method = "hybrid" then
      if isPowerOfTwo time then (g.lap (g.eps / 2) st.ctr, st.ctr + 1)
      else (g.lap ((g.eps / 2) / (Nat.log2 time : Rat)) st.ctr, st.ctr + 1)
    else (0, st.ctr)
  consolidateStore g method ⟨storeSet st.store time ⟨time, 1, drawn.1⟩, drawn.2⟩ time

/-- `add_noise_custom(N, time)`: insert a caller-supplied noise value
and consolidate. -/
def addNoiseCustom (g : NoiseGenerator) (method : String) (N : Int)
    (st : StoreState) (time : Nat) : Option StoreState :=
  consolidateStore g method ⟨storeSet st.store time ⟨time, 1, N⟩, st.ctr⟩ time

/-- `release_noise()`: sum of the noise of every stored partial sum,
starting from `zeros()`; a pure read of the store. -/
def releaseNoise (st : StoreState) : Int :=
  st.store.foldl (fun acc e => acc + e.2.noise) 0

/-- `NoisePartialSumStore.__init__` validation: raises
(`none`) when the release method is not `'tree'` and the noise type is
not `'laplacian'`, or when the release method is unrecognized;
otherwise yields the freshly constructed empty store. -/
def initStore (g : NoiseGenerator) (method : String) : Option StoreState :=
  if method ≠ "tree" ∧ g.noise_type ≠ "laplacian" then none
  else if ¬ (method = "tree" ∨ method = "every" ∨ method = "once" ∨
      method = "sqrt" ∨ method = "hybrid") then none
  else some ⟨[], 0⟩

/-- `n` sequential `add_noise` calls at times `1, 2, ..., n` starting
from the empty store. -/
def runAdds (g : NoiseGenerator) (method : String) : Nat → Option StoreState
  | 0 => some ⟨[], 0⟩
  | n + 1 => (runAdds g method n).bind fun st => addNoise g method st (n + 1)

/-- `_NoisePartialSumStore.add(time, noise)`: unconditional dictionary
write of the unit partial sum (the base-class `consolidate` is a no-op). -/
def baseAdd (s : Store) (time : Nat) (noise : Int) : Store :=
  storeSet s time ⟨time, 1, noise⟩

/-- `_NoisePartialSumStore.release()`: `0` on the empty store, else the
sum of all stored noises. -/
def baseRelease (s : Store) : Int :=
  if s.length = 0 then 0 else s.foldl (fun acc e => acc + e.2.noise) 0

/-- State of a `TwoLevelPartialSumStore`: the (unused) inherited
dictionary, the single-level and block-level accumulators, and the draw
counter.  The transient `new_psum` field is always reset to `None`
before `add` returns, so it is not part of the persistent state. -/
structure TwoLevelState where
  store : Store
  single_level : Option NoisePartialSum
  block_level : Option NoisePartialSum
  ctr : Nat
deriving DecidableEq, Repr

/-- `TwoLevelPartialSumStore.add` followed by its `consolidate`: fold
the unit noise into the single-level entry; once that entry's size
reaches `block_size`, draw one noise at scale `2*eps` (sensitivity = the
last covered time), fold it into the block-level entry and clear the
single-level entry. -/
def twoLevelAdd (g : NoiseGenerator) (block_size : Nat) (s : TwoLevelState)
    (time : Nat) (noise : Int) : TwoLevelState :=
  let single : NoisePartialSum :=
    match s.single_level with
    | some sl => ⟨sl.start, sl.size + 1, sl.noise + noise⟩
    | none => ⟨time, 1, noise⟩
  if block_size ≤ single.size then
    let sens := single.start + single.size - 1
    let newNoise := g.lapSens (2 * g.eps) sens s.ctr
    let block : NoisePartialSum :=
      match s.block_level with
      | some bl => ⟨bl.start, bl.size + single.size, bl.noise + newNoise⟩
      | none => ⟨START_TIME, single.size, newNoise⟩
    ⟨s.store, none, some block, s.ctr + 1⟩
  else ⟨s.store, some single, s.block_level, s.ctr⟩

/-- A freshly constructed `TwoLevelPartialSumStore`. -/
def twoLevelInit : TwoLevelState := ⟨[], none, none, 0⟩

/-- A sequence of `add(time, noise)` calls against a two-level store. -/
def twoLevelRun (g : NoiseGenerator) (block_size : Nat)
    (adds : List (Nat × Int)) : TwoLevelState :=
  adds.foldl (fun s p => twoLevelAdd g block_size s p.1 p.2) twoLevelInit

/-- `TwoLevelPartialSumStore.release`. -/
def twoLevelRelease (s : TwoLevelState) : Int :=
  match s.block_level, s.single_level with
  | some b, some sl => b.noise + sl.noise
  | some b, none => b.noise
  | none, some sl => sl.noise
  | none, none => 0

/-- Size of the single-level accumulator (0 when empty). -/
def singleSize (s : TwoLevelState) : Nat :=
  match s.single_level with
  | none => 0
  | some sl => sl.size

/-- Canonical tree-strategy store contents after `n` steps: the binary
decomposition of `n` laid out from `s`, largest power first, with noise
values given by `f` at each block start.  Mirrors the invariant the
`tree` consolidation maintains. -/
def skelStore (f : Nat → Int) (n : Nat) (s : Nat) : Store :=
  if h : n = 0 then []
  else
    (s, ⟨s, 2 ^ Nat.log2 n, f s⟩) :: skelStore f (n - 2 ^ Nat.log2 n) (s + 2 ^ Nat.log2 n)
termination_by n
decreasing_by
  exact Nat.sub_lt (Nat.pos_of_ne_zero h) (Nat.pos_pow_of_pos _ (by omega))

/-- A run of `c` entries of strictly decreasing power-of-two sizes
`2^(lo+c-1), ..., 2^lo` tiling the interval starting at `a`: the shape
of the trailing all-ones part of a tree store mid-carry. -/
def onesRun (f : Nat → Int) : Nat → Nat → Nat → Store
  | 0, _, _ => []
  | c + 1, lo, a => (a, ⟨a, 2 ^ (lo + c), f a⟩) :: onesRun f c lo (a + 2 ^ (lo + c))

/-- Number of trailing one-bits of `n`. -/
def trailingOnes (n : Nat) : Nat :=
  if n % 2 = 1 then trailingOnes (n / 2) + 1 else 0
termination_by n
decreasing_by
  refine Nat.div_lt_self ?_ (by omega)
  rcases Nat.eq_zero_or_pos n with h | h
  · subst h; simp_all
  · exact h

/-- A generator whose every draw (unit, merge and block level alike)
returns the scalar `1`. -/
def constGen : NoiseGenerator :=
  ⟨1, 1, 16, "laplacian", fun _ _ => 1, fun _ _ _ => 1, fun _ _ _ _ => 1⟩

/-- A generator whose per-step sampler returns `5` on the first draw
and `0` on every later draw. -/
def onceGen : NoiseGenerator :=
  ⟨1, 1, 16, "laplacian", fun _ i => if i = 0 then 5 else 0,
   fun _ _ _ => 0, fun _ _ _ _ => 0⟩

/-- A generator of non-Laplace type. -/
def gaussGen : NoiseGenerator :=
  ⟨1, 1, 16, "gaussian", fun _ _ => 0, fun _ _ _ => 0, fun _ _ _ _ => 0⟩

/-! ### Basic store lemmas -/

theorem foldl_add_noise (l : Store) (a : Int) :
    l.foldl (fun acc e => acc + e.2.noise) a = a + (l.map fun e => e.2.noise).sum := by
  induction l generalizing a with
  | nil => simp
  | cons e rest ih => simp [List.foldl_cons, ih]; ring

theorem memStore_iff (s : Store) (k : Nat) :
    memStore s k = true ↔ k ∈ storeKeys s := by
  induction s with
  | nil => simp [memStore, storeKeys]
  | cons e rest ih =>
    rcases e with ⟨k1, v1⟩
    show (k1 == k || memStore rest k) = true ↔ k ∈ k1 :: storeKeys rest
    rw [Bool.or_eq_true, beq_iff_eq, List.mem_cons, ih]
    constructor
    · rintro (h | h)
      · exact Or.inl h.symm
      · exact Or.inr h
    · rintro (h | h)
      · exact Or.inl h.symm
      · exact Or.inr h

theorem lookupStore_eq_none_iff (s : Store) (k : Nat) :
    lookupStore s k = none ↔ k ∉ storeKeys s := by
  induction s with
  | nil => simp [lookupStore, storeKeys]
  | cons e rest ih =>
    rcases e with ⟨k1, v1⟩
    show (if k1 = k then some v1 else lookupStore rest k) = none ↔ k ∉ k1 :: storeKeys rest
    by_cases h : k1 = k
    · subst h; simp
    · rw [if_neg h, ih, List.mem_cons]
      constructor
      · intro hn hc
        rcases hc with hc | hc
        · exact h hc.symm
        · exact hn hc
      · intro hn hc
        exact hn (Or.inr hc)

theorem lookupStore_append_of_not_mem (s1 s2 : Store) (k : Nat)
    (h : k ∉ storeKeys s1) :
    lookupStore (s1 ++ s2) k = lookupStore s2 k := by
  induction s1 with
  | nil => simp
  | cons e rest ih =>
    rcases e with ⟨k1, v1⟩
    have hk1 : ¬ k1 = k := fun hh => h (by
      simp only [storeKeys, List.map_cons, List.mem_cons]
      exact Or.inl hh.symm)
    have hr : k ∉ storeKeys rest := fun hh => h (by
      simp only [storeKeys, List.map_cons, List.mem_cons]
      exact Or.inr hh)
    show (if k1 = k then some v1 else lookupStore (rest ++ s2) k) = lookupStore s2 k
    rw [if_neg hk1, ih hr]

theorem lookupStore_singleton_self (k : Nat) (v : NoisePartialSum) :
    lookupStore [(k, v)] k = some v := by
  simp [lookupStore]

theorem lookupStore_singleton_ne (k j : Nat) (v : NoisePartialSum) (h : k ≠ j) :
    lookupStore [(k, v)] j = none := by
  simp [lookupStore, h]

theorem lookupStore_storeSet_self (s : Store) (k : Nat) (v : NoisePartialSum) :
    lookupStore (storeSet s k v) k = some v := by
  induction s with
  | nil => simp [storeSet, lookupStore]
  | cons e rest ih =>
    rcases e with ⟨k1, v1⟩
    simp only [storeSet]
    by_cases h : k1 = k
    · rw [if_pos h]
      simp [lookupStore]
    · rw [if_neg h]
      simp only [lookupStore]
      rw [if_neg h, ih]

theorem lookupStore_storeSet_ne (s : Store) (k j : Nat) (v : NoisePartialSum)
    (h : j ≠ k) : lookupStore (storeSet s k v) j = lookupStore s j := by
  induction s with
  | nil => simp [storeSet, lookupStore, Ne.symm h]
  | cons e rest ih =>
    rcases e with ⟨k1, v1⟩
    simp only [storeSet]
    by_cases h1 : k1 = k
    · rw [if_pos h1]
      simp only [lookupStore]
      rw [if_neg (fun hh : k = j => h hh.symm),
        if_neg (fun hh : k1 = j => h (h1.symm.trans hh).symm)]
    · rw [if_neg h1]
      simp only [lookupStore]
      by_cases h2 : k1 = j
      · rw [if_pos h2, if_pos h2]
      · rw [if_neg h2, if_neg h2, ih]

theorem lookupStore_storeDel_ne (s : Store) (k j : Nat) (h : j ≠ k) :
    lookupStore (storeDel s k) j = lookupStore s j := by
  induction s with
  | nil => simp [storeDel]
  | cons e rest ih =>
    rcases e with ⟨k1, v1⟩
    simp only [storeDel]
    by_cases h1 : k1 = k
    · rw [if_pos h1]
      simp only [lookupStore]
      rw [if_neg (fun hh : k1 = j => h (h1 ▸ hh ▸ rfl))]
    · rw [if_neg h1]
      simp only [lookupStore]
      by_cases h2 : k1 = j
      · rw [if_pos h2, if_pos h2]
      · rw [if_neg h2, if_neg h2, ih]

theorem storeKeys_storeDel_subset (s : Store) (k j : Nat)
    (h : j ∈ storeKeys (storeDel s k)) : j ∈ storeKeys s := by
  induction s with
  | nil => simp [storeDel, storeKeys] at h
  | cons e rest ih =>
    rcases e with ⟨k1, v1⟩
    simp only [storeDel] at h
    by_cases h1 : k1 = k
    · rw [if_pos h1] at h
      simp only [storeKeys, List.map_cons, List.mem_cons]
      exact Or.inr h
    · rw [if_neg h1] at h
      simp only [storeKeys, List.map_cons, List.mem_cons] at h ⊢
      rcases h with h | h
      · exact Or.inl h
      · exact Or.inr (ih h)

theorem lookupStore_storeDel_self_of_nodup (s : Store) (k : Nat)
    (hnd : (storeKeys s).Nodup) :
    lookupStore (storeDel s k) k = none := by
  induction s with
  | nil => simp [storeDel, lookupStore]
  | cons e rest ih =>
    rcases e with ⟨k1, v1⟩
    simp only [storeKeys, List.map_cons, List.nodup_cons] at hnd
    simp only [storeDel]
    by_cases h1 : k1 = k
    · rw [if_pos h1, lookupStore_eq_none_iff]
      intro hc
      exact hnd.1 (h1 ▸ hc)
    · rw [if_neg h1]
      simp only [lookupStore]
      rw [if_neg h1, ih hnd.2]

theorem storeKeys_storeSet_mem (s : Store) (k : Nat) (v : NoisePartialSum)
    (hm : k ∈ storeKeys s) : storeKeys (storeSet s k v) = storeKeys s := by
  induction s with
  | nil => simp [storeKeys] at hm
  | cons e rest ih =>
    rcases e with ⟨k1, v1⟩
    simp only [storeSet]
    by_cases h1 : k1 = k
    · rw [if_pos h1]
      simp [storeKeys, h1]
    · rw [if_neg h1]
      simp only [storeKeys, List.map_cons, List.mem_cons] at hm ⊢
      rcases hm with hm | hm
      · exact absurd hm.symm h1
      · rw [show (List.map Prod.fst (storeSet rest k v) : List Nat)
          = storeKeys (storeSet rest k v) from rfl, ih hm]
        rfl

theorem storeSet_append_of_not_mem (s1 s2 : Store) (k : Nat) (v : NoisePartialSum)
    (h : k ∉ storeKeys s1) :
    storeSet (s1 ++ s2) k v = s1 ++ storeSet s2 k v := by
  induction s1 with
  | nil => simp
  | cons e rest ih =>
    rcases e with ⟨k1, v1⟩
    have hk1 : ¬ k1 = k := fun hh => h (by
      simp only [storeKeys, List.map_cons, List.mem_cons]
      exact Or.inl hh.symm)
    have hr : k ∉ storeKeys rest := fun hh => h (by
      simp only [storeKeys, List.map_cons, List.mem_cons]
      exact Or.inr hh)
    show (if k1 = k then (k, v) :: (rest ++ s2) else (k1, v1) :: storeSet (rest ++ s2) k v)
      = (k1, v1) :: (rest ++ storeSet s2 k v)
    rw [if_neg hk1, ih hr]

theorem storeDel_append_of_not_mem (s1 s2 : Store) (k : Nat)
    (h : k ∉ storeKeys s1) :
    storeDel (s1 ++ s2) k = s1 ++ storeDel s2 k := by
  induction s1 with
  | nil => simp
  | cons e rest ih =>
    rcases e with ⟨k1, v1⟩
    have hk1 : ¬ k1 = k := fun hh => h (by
      simp only [storeKeys, List.map_cons, List.mem_cons]
      exact Or.inl hh.symm)
    have hr : k ∉ storeKeys rest := fun hh => h (by
      simp only [storeKeys, List.map_cons, List.mem_cons]
      exact Or.inr hh)
    show (if k1 = k then rest ++ s2 else (k1, v1) :: storeDel (rest ++ s2) k)
      = (k1, v1) :: (rest ++ storeDel s2 k)
    rw [if_neg hk1, ih hr]

theorem storeSet_of_not_mem (s : Store) (k : Nat) (v : NoisePartialSum)
    (h : k ∉ storeKeys s) : storeSet s k v = s ++ [(k, v)] := by
  induction s with
  | nil => simp [storeSet]
  | cons e rest ih =>
    rcases e with ⟨k1, v1⟩
    have hk1 : ¬ k1 = k := fun hh => h (by
      simp only [storeKeys, List.map_cons, List.mem_cons]
      exact Or.inl hh.symm)
    have hr : k ∉ storeKeys rest := fun hh => h (by
      simp only [storeKeys, List.map_cons, List.mem_cons]
      exact Or.inr hh)
    show (if k1 = k then (k, v) :: rest else (k1, v1) :: storeSet rest k v)
      = (k1, v1) :: (rest ++ [(k, v)])
    rw [if_neg hk1, ih hr]

/-! ### C1: release is the elementwise sum of stored noises -/

/-- C1: `release_noise` (dispatch class) and `release` (underscore base
class) both return the elementwise sum of the `noise` fields of all
partial sums currently in the store, and the additive identity `0` when
the store is empty.  Both are embedded as pure (total) functions of the
store — the loops only read the entries while accumulating into a fresh
`zeros()` value, so no store mutation and no exception can occur. -/
theorem release_is_sum_of_noises :
    (∀ st : StoreState, releaseNoise st = (st.store.map fun e => e.2.noise).sum) ∧
    (∀ c : Nat, releaseNoise ⟨[], c⟩ = 0) ∧
    (∀ s : Store, baseRelease s = (s.map fun e => e.2.noise).sum) ∧
    baseRelease [] = 0 := by
  refine ⟨fun st => ?_, fun c => rfl, fun s => ?_, rfl⟩
  · rw [releaseNoise, foldl_add_noise]
    simp
  · rw [baseRelease]
    rcases s with _ | ⟨e, rest⟩
    · simp
    · rw [if_neg (by simp), foldl_add_noise]
      simp

/-! ### C9: tree scenario, 7 adds with the constant-1 sampler -/

/-- C9: under the tree strategy with a sampler that returns the scalar
`1` for every draw, after the 7 sequential `add` calls at times 1..7 the
store holds exactly the partial sums of sizes 4, 2, 1 (the binary
decomposition of 7) and `release_noise` returns `3`. -/
theorem tree_seven_adds_scenario :
    (runAdds constGen "tree" 7).map
        (fun st => (st.store.map fun e => e.2.size, releaseNoise st)) =
      some ([4, 2, 1], 3) := by
  decide

/-! ### C3: duplicate / non-monotonic `add` does not fail fast -/

/-- C3 counterexample: with an entry already stored at time 3, calling
`add_noise` again at time 3 succeeds (no exception: the result is
`some _`, not `none`) and silently replaces the stored entry — its
noise changes from 5 to the freshly drawn 1 — contradicting the claim
that such a call fails fast. -/
theorem add_duplicate_time_counterexample :
    addNoise constGen "tree" ⟨[(3, ⟨3, 1, 5⟩)], 0⟩ 3 =
      some ⟨[(3, ⟨3, 1, 1⟩)], 1⟩ := by
  decide

/-- C3 amended: `add` performs no duplicate-key or monotonicity check;
the dictionary write of the new unit partial sum unconditionally
replaces any entry already stored at `time` and leaves every other key
unchanged (shown for the underscore base class `add`, whose
`consolidate` is a no-op; the dispatch-class `add_noise` behaves the
same way, as the counterexample shows). -/
theorem add_silently_overwrites (s : Store) (time : Nat) (noise : Int) :
    lookupStore (baseAdd s time noise) time = some ⟨time, 1, noise⟩ ∧
    ∀ k, k ≠ time → lookupStore (baseAdd s time noise) k = lookupStore s k := by
  constructor
  · exact lookupStore_storeSet_self s time _
  · intro k hk
    exact lookupStore_storeSet_ne s time k _ hk

/-- Witness for the amended C3 statement at a concrete store. -/
theorem add_silently_overwrites_witness :
    lookupStore (baseAdd [(3, ⟨3, 1, 5⟩)] 3 9) 3 = some ⟨3, 1, 9⟩ ∧
    lookupStore (baseAdd [(3, ⟨3, 1, 5⟩)] 3 9) 7 = lookupStore [(3, ⟨3, 1, 5⟩)] 7 :=
  ⟨(add_silently_overwrites [(3, ⟨3, 1, 5⟩)] 3 9).1,
   (add_silently_overwrites [(3, ⟨3, 1, 5⟩)] 3 9).2 7 (by decide)⟩

/-! ### C6: constructor validation -/

/-- C6 counterexample: constructing a store with the Tree strategy and
a noise source whose type is not `'laplacian'` succeeds (the
constructor's first check only fires when the release method is *not*
`'tree'`), while the same noise source with the `'every'` strategy is
rejected — the opposite of what the claim states. -/
theorem init_tree_accepts_nonlaplacian_counterexample :
    initStore gaussGen "tree" = some ⟨[], 0⟩ ∧
    initStore gaussGen "every" = none := by
  constructor
  · rfl
  · rfl

/-- C6 amended: an unrecognized strategy name is always rejected; a
noise source not of Laplace type is rejected for every strategy *other
than* Tree; the Tree strategy itself is accepted regardless of the
noise type.  Rejection happens in `__init__` before any state is set
up, so no store results (`none`). -/
theorem init_validation (g : NoiseGenerator) (method : String) :
    (¬ (method = "tree" ∨ method = "every" ∨ method = "once" ∨
        method = "sqrt" ∨ method = "hybrid") → initStore g method = none) ∧
    (g.noise_type ≠ "laplacian" → method ≠ "tree" → initStore g method = none) ∧
    initStore g "tree" = some ⟨[], 0⟩ := by
  refine ⟨fun hbad => ?_, fun hg hm => ?_, ?_⟩
  · rw [initStore]
    by_cases h1 : method ≠ "tree" ∧ g.noise_type ≠ "laplacian"
    · rw [if_pos h1]
    · rw [if_neg h1, if_pos hbad]
  · rw [initStore, if_pos ⟨hm, hg⟩]
  · rw [initStore, if_neg (by simp), if_neg (by simp)]

/-- Witness for the amended C6 statement at concrete inputs. -/
theorem init_validation_witness :
    initStore gaussGen "bogus" = none ∧
    initStore gaussGen "sqrt" = none ∧
    initStore gaussGen "tree" = some ⟨[], 0⟩ :=
  ⟨(init_validation gaussGen "bogus").1 (by decide),
   (init_validation gaussGen "sqrt").2.1 (by decide) (by decide),
   (init_validation gaussGen "sqrt").2.2⟩

/-! ### Strategy dispatch unfolding lemmas -/

theorem addNoise_once_empty (g : NoiseGenerator) (c time : Nat) :
    addNoise g "once" ⟨[], c⟩ time =
      consolidateForOnce ⟨[(time, ⟨time, 1, g.lap (g.eps / (g.T : Rat)) c⟩)], c + 1⟩ time :=
  rfl

theorem addNoise_once_nonempty (g : NoiseGenerator) (st : StoreState) (time : Nat)
    (hs : st.store.length ≠ 0) :
    addNoise g "once" st time =
      consolidateForOnce ⟨storeSet st.store time ⟨time, 1, 0⟩, st.ctr⟩ time := by
  rw [addNoise]
  simp [consolidateStore, hs]

theorem addNoise_every (g : NoiseGenerator) (st : StoreState) (time : Nat) :
    addNoise g "every" st time =
      consolidateForEvery
        ⟨storeSet st.store time ⟨time, 1, g.lap g.eps st.ctr⟩, st.ctr + 1⟩ time :=
  rfl

theorem addNoise_tree (g : NoiseGenerator) (st : StoreState) (time : Nat) :
    addNoise g "tree" st time =
      consolidateForTree g
        ((storeSet st.store time ⟨time, 1, g.tree g.eps g.delta g.T st.ctr⟩).length + 1)
        ⟨storeSet st.store time ⟨time, 1, g.tree g.eps g.delta g.T st.ctr⟩, st.ctr + 1⟩
        time :=
  rfl

theorem addNoise_sqrt (g : NoiseGenerator) (st : StoreState) (time : Nat) :
    addNoise g "sqrt" st time =
      consolidateForSqrt g
        ⟨storeSet st.store time ⟨time, 1, g.lap g.eps st.ctr⟩, st.ctr + 1⟩ time :=
  rfl

/-! ### C5: the Once strategy keeps the very first draw, unchanged -/

/-- Characterization used for C5: after `n ≥ 1` adds under the Once
strategy the store holds exactly one entry, keyed `START_TIME`, whose
noise is the single draw made at the first `add` (`laplacian(eps/T)` at
stream position 0); every later step samples `zeros()` and its entry is
deleted again by the consolidation.  Consequently `release_noise`
returns that first draw. -/
theorem once_run_characterization (g : NoiseGenerator) (n : Nat) (hn : 1 ≤ n) :
    runAdds g "once" n =
      some ⟨[(START_TIME, ⟨START_TIME, 1, g.lap (g.eps / (g.T : Rat)) 0⟩)], 1⟩ ∧
    (runAdds g "once" n).map releaseNoise = some (g.lap (g.eps / (g.T : Rat)) 0) := by
  have main : ∀ m : Nat, runAdds g "once" (m + 1) =
      some ⟨[(1, ⟨1, 1, g.lap (g.eps / (g.T : Rat)) 0⟩)], 1⟩ := by
    intro m
    induction m with
    | zero => rfl
    | succ m ih =>
      rw [runAdds, ih, Option.some_bind]
      rw [addNoise_once_nonempty _ _ _ (by simp)]
      have h1 : (1 : Nat) ≠ m + 1 + 1 := by omega
      have hset : storeSet
          [(1, (⟨1, 1, g.lap (g.eps / (g.T : Rat)) 0⟩ : NoisePartialSum))]
          (m + 1 + 1) ⟨m + 1 + 1, 1, 0⟩
          = [(1, ⟨1, 1, g.lap (g.eps / (g.T : Rat)) 0⟩),
             (m + 1 + 1, ⟨m + 1 + 1, 1, 0⟩)] := by
        simp [storeSet, h1]
      rw [consolidateForOnce]
      simp only [hset]
      rw [if_pos (by simp [START_TIME])]
      rw [if_pos (by rw [memStore_iff]; simp [storeKeys])]
      simp [storeDel, h1]
  obtain ⟨m, rfl⟩ : ∃ m, n = m + 1 := ⟨n - 1, by omega⟩
  refine ⟨main m, ?_⟩
  rw [main m]
  simp [releaseNoise, START_TIME]

/-- Witness for C5 at the claim's scenario: the per-step sampler
returns 5 on its first draw and 0 afterwards; after 10 adds the store
is the single first-draw entry and `release_noise` returns 5. -/
theorem once_run_characterization_witness :
    (runAdds onceGen "once" 10 =
      some ⟨[(START_TIME, ⟨START_TIME, 1, onceGen.lap (onceGen.eps / (onceGen.T : Rat)) 0⟩)], 1⟩ ∧
     (runAdds onceGen "once" 10).map releaseNoise =
      some (onceGen.lap (onceGen.eps / (onceGen.T : Rat)) 0)) ∧
    onceGen.lap (onceGen.eps / (onceGen.T : Rat)) 0 = 5 :=
  ⟨once_run_characterization onceGen 10 (by decide), by decide⟩

/-! ### C4: the Every strategy double-counts the first draw -/

/-- C4 counterexample: with a sampler that returns `1` on every draw,
after 2 adds under the Every strategy the single stored entry's noise
is `3`, while the elementwise sum of the 2 sampled values is `2` — the
first consolidation (`time == START_TIME`) adds the step-1 noise to
itself. -/
theorem every_double_counts_counterexample :
    (runAdds constGen "every" 2).map (fun st => st.store.map fun e => e.2.noise) =
      some [3] ∧
    ((List.range 2).map fun i => constGen.lap constGen.eps i).sum = 2 ∧
    (3 : Int) ≠ 2 := by
  refine ⟨by decide, by decide, by decide⟩

/-- C4 amended: after `n ≥ 1` adds under the Every strategy the store
contains exactly one entry at `START_TIME` with `size = n`, but its
noise is the sum of the `n` sampled values *plus one extra copy of the
first sample*: at `time == START_TIME` the consolidation reads the
just-inserted entry both as the running total and as the new noise, so
the step-1 draw is counted twice. -/
theorem every_run_characterization (g : NoiseGenerator) (n : Nat) (hn : 1 ≤ n) :
    runAdds g "every" n =
      some ⟨[(START_TIME, ⟨START_TIME, n,
        g.lap g.eps 0 + ((List.range n).map fun i => g.lap g.eps i).sum⟩)], n⟩ := by
  obtain ⟨m, rfl⟩ : ∃ m, n = m + 1 := ⟨n - 1, by omega⟩
  induction m with
  | zero =>
    show addNoise g "every" ⟨[], 0⟩ 1 = _
    rw [addNoise_every]
    show consolidateForEvery ⟨[(1, ⟨1, 1, g.lap g.eps 0⟩)], 1⟩ 1 = _
    rw [consolidateForEvery]
    simp [lookupStore, storeSet, START_TIME, releaseNoise,
      show List.range 1 = [0] from rfl]
  | succ m ih =>
    rw [runAdds, ih (by omega), Option.some_bind, addNoise_every]
    have h1 : (1 : Nat) ≠ m + 1 + 1 := by omega
    set S : Int := g.lap g.eps 0 + ((List.range (m + 1)).map fun i => g.lap g.eps i).sum
    set v : Int := g.lap g.eps (m + 1)
    have hset1 : storeSet [(START_TIME, (⟨START_TIME, m + 1, S⟩ : NoisePartialSum))]
        (m + 1 + 1) ⟨m + 1 + 1, 1, v⟩
        = [(1, ⟨1, m + 1, S⟩), (m + 1 + 1, ⟨m + 1 + 1, 1, v⟩)] := by
      simp [storeSet, START_TIME, h1]
    rw [hset1, consolidateForEvery]
    have hl1 : lookupStore
        [(1, (⟨1, m + 1, S⟩ : NoisePartialSum)), (m + 1 + 1, ⟨m + 1 + 1, 1, v⟩)]
        START_TIME = some ⟨1, m + 1, S⟩ := by
      simp [lookupStore, START_TIME]
    have hl2 : lookupStore
        [(1, (⟨1, m + 1, S⟩ : NoisePartialSum)), (m + 1 + 1, ⟨m + 1 + 1, 1, v⟩)]
        (m + 1 + 1) = some ⟨m + 1 + 1, 1, v⟩ := by
      simp [lookupStore, h1]
    rw [hl1, hl2]
    simp only
    have hset2 : storeSet
        [(1, (⟨1, m + 1, S⟩ : NoisePartialSum)), (m + 1 + 1, ⟨m + 1 + 1, 1, v⟩)]
        START_TIME ⟨1, m + 1 + 1, S + v⟩
        = [(1, ⟨1, m + 1 + 1, S + v⟩), (m + 1 + 1, ⟨m + 1 + 1, 1, v⟩)] := by
      simp [storeSet, START_TIME]
    rw [hset2]
    rw [if_pos (by simp [START_TIME])]
    rw [if_pos (by rw [memStore_iff]; simp [storeKeys])]
    have hdel : storeDel
        [(1, (⟨1, m + 1 + 1, S + v⟩ : NoisePartialSum)), (m + 1 + 1, ⟨m + 1 + 1, 1, v⟩)]
        (m + 1 + 1) = [(1, ⟨1, m + 1 + 1, S + v⟩)] := by
      simp [storeDel, h1]
    rw [hdel]
    have hsum : S + v = g.lap g.eps 0 +
        ((List.range (m + 1 + 1)).map fun i => g.lap g.eps i).sum := by
      rw [List.range_succ, List.map_append, List.sum_append]
      simp [S, v]
      ring
    rw [hsum]
    rfl

/-- Witness for the amended C4 statement: with the all-ones sampler and
3 adds, the single entry has size 3 and noise `1 + (1+1+1) = 4`. -/
theorem every_run_characterization_witness :
    runAdds constGen "every" 3 =
      some ⟨[(START_TIME, ⟨START_TIME, 3,
        constGen.lap constGen.eps 0 +
          ((List.range 3).map fun i => constGen.lap constGen.eps i).sum⟩)], 3⟩ :=
  every_run_characterization constGen 3 (by decide)

/-! ### C7: hybrid strategy collapse at powers of two -/

theorem isPowerOfTwo_two_pow (k : Nat) : isPowerOfTwo (2 ^ k) = true := by
  rw [isPowerOfTwo]
  have h : 2 ^ k &&& (2 ^ k - 1) = 2 ^ k % 2 ^ k := Nat.and_pow_two_sub_one_eq_mod _ _
  simp [h, Nat.mod_self, Nat.pos_pow_of_pos]

theorem addNoise_hybrid_pow (g : NoiseGenerator) (st : StoreState) (time : Nat)
    (hp : isPowerOfTwo time = true) :
    addNoise g "hybrid" st time =
      consolidateForHybrid g
        ((storeSet st.store time ⟨time, 1, g.lap (g.eps / 2) st.ctr⟩).length + 1)
        ⟨storeSet st.store time ⟨time, 1, g.lap (g.eps / 2) st.ctr⟩, st.ctr + 1⟩
        time := by
  rw [addNoise]
  simp [consolidateStore, hp]

/-- C7: under the Hybrid strategy, an `add` at a power-of-two time
`t > START_TIME` (with the log-level entry present at `START_TIME`, as
it always is after the first step) leaves the store holding exactly one
entry, keyed `START_TIME`, of size `t`, whose noise is the previous
`START_TIME` (log-level) entry's noise plus this step's fresh
half-budget draw `laplacian(eps/2)`; all other (tree-level) entries are
discarded and no extra draw is made during the collapse. -/
theorem hybrid_power_collapse (g : NoiseGenerator) (st : StoreState) (t : Nat)
    (ps1 : NoisePartialSum) (h1 : lookupStore st.store START_TIME = some ps1)
    (hpow : ∃ k, t = 2 ^ k) (ht : START_TIME < t) :
    addNoise g "hybrid" st t =
      some ⟨[(START_TIME, ⟨START_TIME, t, ps1.noise + g.lap (g.eps / 2) st.ctr⟩)],
        st.ctr + 1⟩ := by
  obtain ⟨k, rfl⟩ := hpow
  have hp : isPowerOfTwo (2 ^ k) = true := isPowerOfTwo_two_pow k
  rw [addNoise_hybrid_pow g st _ hp]
  rw [consolidateForHybrid]
  rw [if_pos ⟨hp, ht⟩]
  have hne : START_TIME ≠ 2 ^ k := by omega
  rw [show lookupStore
      (storeSet st.store (2 ^ k) ⟨2 ^ k, 1, g.lap (g.eps / 2) st.ctr⟩) START_TIME
      = some ps1 from by rw [lookupStore_storeSet_ne _ _ _ _ hne, h1]]
  rw [lookupStore_storeSet_self]

/-- Witness for C7: a store whose log-level entry at time 1 has noise 4,
collapsed by an `add` at time 2 with a constant-1 sampler. -/
theorem hybrid_power_collapse_witness :
    lookupStore ([(1, ⟨1, 1, 4⟩)] : Store) START_TIME = some ⟨1, 1, 4⟩ ∧
    addNoise constGen "hybrid" ⟨[(1, ⟨1, 1, 4⟩)], 0⟩ 2 =
      some ⟨[(START_TIME, ⟨START_TIME, 2,
        (4 : Int) + constGen.lap (constGen.eps / 2) 0⟩)], 1⟩ :=
  ⟨by decide,
   hybrid_power_collapse constGen ⟨[(1, ⟨1, 1, 4⟩)], 0⟩ 2 ⟨1, 1, 4⟩ (by decide)
     ⟨1, rfl⟩ (by decide)⟩

/-! ### C10: two-level store invariant -/

theorem twoLevelAdd_step (g : NoiseGenerator) (bs : Nat) (s : TwoLevelState)
    (time : Nat) (noise : Int) (hbs : 1 ≤ bs)
    (hs : s.single_level = none ∨ ∃ ps, s.single_level = some ps ∧ ps.size < bs) :
    ((twoLevelAdd g bs s time noise).single_level = none ∨
      ∃ ps, (twoLevelAdd g bs s time noise).single_level = some ps ∧ ps.size < bs) ∧
    (twoLevelAdd g bs s time noise).store = s.store ∧
    ((twoLevelAdd g bs s time noise).single_level = none ↔ singleSize s + 1 = bs) := by
  rcases hs with hnone | ⟨ps, hps, hlt⟩
  · rw [twoLevelAdd]
    simp only [hnone]
    by_cases hfire : bs ≤ 1
    · rw [if_pos hfire]
      refine ⟨Or.inl rfl, rfl, ?_⟩
      simp [singleSize, hnone]
      omega
    · rw [if_neg hfire]
      refine ⟨Or.inr ⟨⟨time, 1, noise⟩, rfl, by simp; omega⟩, rfl, ?_⟩
      simp [singleSize, hnone]
      omega
  · rw [twoLevelAdd]
    simp only [hps]
    by_cases hfire : bs ≤ ps.size + 1
    · rw [if_pos hfire]
      refine ⟨Or.inl rfl, rfl, ?_⟩
      simp [singleSize, hps]
      omega
    · rw [if_neg hfire]
      refine ⟨Or.inr ⟨⟨ps.start, ps.size + 1, ps.noise + noise⟩, rfl, by simp; omega⟩, rfl, ?_⟩
      simp [singleSize, hps]
      omega

theorem twoLevel_fold_invariant (g : NoiseGenerator) (bs : Nat) (hbs : 1 ≤ bs)
    (adds : List (Nat × Int)) : ∀ s : TwoLevelState,
    (s.single_level = none ∨ ∃ ps, s.single_level = some ps ∧ ps.size < bs) →
    s.store = [] →
    (((adds.foldl (fun s p => twoLevelAdd g bs s p.1 p.2) s).single_level = none ∨
      ∃ ps, (adds.foldl (fun s p => twoLevelAdd g bs s p.1 p.2) s).single_level
        = some ps ∧ ps.size < bs) ∧
     (adds.foldl (fun s p => twoLevelAdd g bs s p.1 p.2) s).store = []) := by
  induction adds with
  | nil => intro s hs hst; exact ⟨hs, hst⟩
  | cons p rest ih =>
    intro s hs hst
    have step := twoLevelAdd_step g bs s p.1 p.2 hbs hs
    simp only [List.foldl_cons]
    exact ih (twoLevelAdd g bs s p.1 p.2) step.1 (step.2.1.trans hst)

/-- C10: for `block_size ≥ 1`, after any sequence of `add` calls on a
two-level store the single-level accumulator is either empty or
strictly smaller than `block_size`; the inherited dictionary stays
empty, so single-level and block-level are the only entries that ever
exist; and one further `add` clears the single-level accumulator
exactly when the accumulated unit count reaches `block_size`. -/
theorem two_level_single_below_block (g : NoiseGenerator) (bs : Nat)
    (hbs : 1 ≤ bs) (adds : List (Nat × Int)) :
    ((twoLevelRun g bs adds).single_level = none ∨
      ∃ ps, (twoLevelRun g bs adds).single_level = some ps ∧ ps.size < bs) ∧
    (twoLevelRun g bs adds).store = [] ∧
    ∀ time noise,
      (twoLevelAdd g bs (twoLevelRun g bs adds) time noise).single_level = none ↔
        singleSize (twoLevelRun g bs adds) + 1 = bs := by
  have base := twoLevel_fold_invariant g bs hbs adds twoLevelInit (Or.inl rfl) rfl
  refine ⟨base.1, base.2, fun time noise => ?_⟩
  exact (twoLevelAdd_step g bs _ time noise hbs base.1).2.2

/-- Witness for C10: block size 2, three adds; the run evaluates to a
state with an empty single-level entry count below 2. -/
theorem two_level_single_below_block_witness :
    ((twoLevelRun constGen 2 [(1, 5), (2, 7), (3, 1)]).single_level = none ∨
      ∃ ps, (twoLevelRun constGen 2 [(1, 5), (2, 7), (3, 1)]).single_level
        = some ps ∧ ps.size < 2) ∧
    (twoLevelRun constGen 2 [(1, 5), (2, 7), (3, 1)]).store = [] ∧
    ∀ time noise,
      (twoLevelAdd constGen 2 (twoLevelRun constGen 2 [(1, 5), (2, 7), (3, 1)])
        time noise).single_level = none ↔
        singleSize (twoLevelRun constGen 2 [(1, 5), (2, 7), (3, 1)]) + 1 = 2 :=
  two_level_single_below_block constGen 2 (by decide) [(1, 5), (2, 7), (3, 1)]

/-! ### C8: sqrt-strategy block consolidation -/

theorem mem_range'_iff (s n m : Nat) : m ∈ List.range' s n ↔ s ≤ m ∧ m < s + n := by
  rw [List.mem_range']
  constructor
  · rintro ⟨i, hi, rfl⟩
    omega
  · intro h
    exact ⟨m - s, by omega, by omega⟩

theorem mem_storeKeys_iff_lookup (s : Store) (j : Nat) :
    j ∈ storeKeys s ↔ lookupStore s j ≠ none := by
  rw [ne_eq, lookupStore_eq_none_iff]
  tauto

theorem storeKeys_storeDel_sublist (s : Store) (k : Nat) :
    (storeKeys (storeDel s k)).Sublist (storeKeys s) := by
  induction s with
  | nil => simp [storeDel, storeKeys]
  | cons e rest ih =>
    rcases e with ⟨k1, v1⟩
    simp only [storeDel]
    by_cases h1 : k1 = k
    · rw [if_pos h1]
      exact (List.sublist_cons_self k1 (storeKeys rest))
    · rw [if_neg h1]
      exact List.Sublist.cons₂ k1 ih

theorem storeKeys_storeDel_nodup (s : Store) (k : Nat)
    (h : (storeKeys s).Nodup) : (storeKeys (storeDel s k)).Nodup :=
  (storeKeys_storeDel_sublist s k).nodup h

theorem mem_storeKeys_storeDel_of_ne (s : Store) (k j : Nat) (hne : j ≠ k)
    (h : j ∈ storeKeys s) : j ∈ storeKeys (storeDel s k) := by
  rw [mem_storeKeys_iff_lookup] at h ⊢
  rw [lookupStore_storeDel_ne s k j hne]
  exact h

theorem mem_storeKeys_storeSet (s : Store) (k j : Nat) (v : NoisePartialSum)
    (h : j ∈ storeKeys s) : j ∈ storeKeys (storeSet s k v) := by
  rw [mem_storeKeys_iff_lookup] at h ⊢
  by_cases hj : j = k
  · subst hj
    rw [lookupStore_storeSet_self]
    simp
  · rw [lookupStore_storeSet_ne s k j v hj]
    exact h

theorem storeKeys_storeSet_nodup (s : Store) (k : Nat) (v : NoisePartialSum)
    (h : (storeKeys s).Nodup) : (storeKeys (storeSet s k v)).Nodup := by
  by_cases hm : k ∈ storeKeys s
  · rw [storeKeys_storeSet_mem s k v hm]
    exact h
  · rw [storeSet_of_not_mem s k v hm]
    rw [show storeKeys (s ++ [(k, v)]) = storeKeys s ++ [k] from by
      simp [storeKeys]]
    simp [List.nodup_append, h, hm]

theorem delKeys_of_nodup : ∀ (ks : List Nat) (s : Store),
    (storeKeys s).Nodup → ks.Nodup → (∀ k ∈ ks, k ∈ storeKeys s) →
    ∃ s2, delKeys s ks = some s2 ∧
      ∀ j, lookupStore s2 j = if j ∈ ks then none else lookupStore s j := by
  intro ks
  induction ks with
  | nil =>
    intro s hnd _ _
    exact ⟨s, rfl, fun j => by simp⟩
  | cons k ks ih =>
    intro s hnd hksnd hall
    have hkmem : k ∈ storeKeys s := hall k (by simp)
    have hdel : delKeys s (k :: ks) = delKeys (storeDel s k) ks := by
      rw [delKeys, if_pos ((memStore_iff s k).2 hkmem)]
    simp only [List.nodup_cons] at hksnd
    obtain ⟨s2, hs2, hpt⟩ := ih (storeDel s k)
      (storeKeys_storeDel_nodup s k hnd) hksnd.2
      (fun k2 hk2 => mem_storeKeys_storeDel_of_ne s k k2
        (fun hh => hksnd.1 (hh ▸ hk2)) (hall k2 (by simp [hk2])))
    refine ⟨s2, hdel.trans hs2, fun j => ?_⟩
    rw [hpt j]
    by_cases hjk : j = k
    · subst hjk
      rw [if_neg hksnd.1, if_pos (by simp)]
      exact lookupStore_storeDel_self_of_nodup s j hnd
    · by_cases hjks : j ∈ ks
      · rw [if_pos hjks, if_pos (by simp [hjks])]
      · rw [if_neg hjks, if_neg (by simp [hjk, hjks])]
        exact lookupStore_storeDel_ne s k j hjk

/-- C8: under the Sqrt strategy (block size `⌊√T⌋ ≥ 1`), consider an
`add` at time `t` with `block_start = t - block_size + 1 ≥ 1`, on a
store with distinct keys.  If the last `block_size` positions before
`t` are all present (so the entry at `block_start` exists), the
consolidation deletes every entry keyed in `[block_start, t]`, draws
exactly one fresh block-level noise at scale `2*eps`, and stores it at
`START_TIME` — a fresh entry of size `block_size` when
`block_start = START_TIME`, otherwise folded into the existing
`START_TIME` entry (summing noises and extending its size by
`block_size`); every key outside `[block_start, t]` is untouched.  If
instead no entry exists at `block_start` (an incomplete trailing
block), the store is left untouched apart from the new unit entry. -/
theorem sqrt_block_consolidation (g : NoiseGenerator) (st : StoreState)
    (t bs B : Nat) (hbseq : bs = Nat.sqrt g.T) (hBeq : B = t + 1 - bs)
    (hnd : (storeKeys st.store).Nodup) (hbs : 1 ≤ bs) (hB : 1 ≤ B) :
    ((∀ k, B ≤ k → k < t → k ∈ storeKeys st.store) →
     (B ≠ 1 → lookupStore st.store 1 ≠ none) →
     ∃ st2, addNoise g "sqrt" st t = some st2 ∧
       st2.ctr = st.ctr + 2 ∧
       ∀ j, lookupStore st2.store j =
         if j = 1 then
           some (if B = 1 then ⟨1, bs, g.lap (2 * g.eps) (st.ctr + 1)⟩
             else
               match lookupStore st.store 1 with
               | some e1 =>
                   ⟨1, e1.size + bs, e1.noise + g.lap (2 * g.eps) (st.ctr + 1)⟩
               | none => ⟨1, bs, g.lap (2 * g.eps) (st.ctr + 1)⟩)
         else if B ≤ j ∧ j ≤ t then none
         else lookupStore st.store j) ∧
    (B ∉ storeKeys st.store → B ≠ t →
      addNoise g "sqrt" st t =
        some ⟨storeSet st.store t ⟨t, 1, g.lap g.eps st.ctr⟩, st.ctr + 1⟩) := by
  have hBt : B ≤ t := by omega
  constructor
  · intro hall h1
    have hnd1 : (storeKeys (storeSet st.store t ⟨t, 1, g.lap g.eps st.ctr⟩)).Nodup :=
      storeKeys_storeSet_nodup _ _ _ hnd
    have htmem1 : t ∈ storeKeys (storeSet st.store t ⟨t, 1, g.lap g.eps st.ctr⟩) := by
      rw [mem_storeKeys_iff_lookup, lookupStore_storeSet_self]
      simp
    have hrangeP : ∀ k ∈ List.range' B (t + 1 - B),
        k ∈ storeKeys (storeSet st.store t ⟨t, 1, g.lap g.eps st.ctr⟩) := by
      intro k hk
      rw [mem_range'_iff] at hk
      by_cases hkt : k = t
      · rw [hkt]; exact htmem1
      · exact mem_storeKeys_storeSet _ _ _ _ (hall k hk.1 (by omega))
    obtain ⟨s2, hs2, hpt⟩ := delKeys_of_nodup (List.range' B (t + 1 - B))
      (storeSet st.store t ⟨t, 1, g.lap g.eps st.ctr⟩) hnd1
      (List.nodup_range' _ _) hrangeP
    have hmemB : memStore (storeSet st.store t ⟨t, 1, g.lap g.eps st.ctr⟩) B = true := by
      rw [memStore_iff]
      exact hrangeP B (by rw [mem_range'_iff]; omega)
    rw [addNoise_sqrt, consolidateForSqrt]
    simp only [← hbseq, ← hBeq, START_TIME]
    rw [if_pos hmemB]
    simp only [hs2]
    by_cases hB1 : B = 1
    · rw [if_pos hB1]
      refine ⟨_, rfl, rfl, fun j => ?_⟩
      by_cases hj1 : j = 1
      · subst hj1
        rw [lookupStore_storeSet_self, if_pos rfl, if_pos hB1]
      · rw [lookupStore_storeSet_ne _ _ _ _ hj1, hpt j, if_neg hj1]
        by_cases hjr : B ≤ j ∧ j ≤ t
        · rw [if_pos (by rw [mem_range'_iff]; omega), if_pos hjr]
        · rw [if_neg (by rw [mem_range'_iff]; omega), if_neg hjr]
          exact lookupStore_storeSet_ne _ _ _ _ (by omega)
    · rw [if_neg hB1]
      obtain ⟨e1, he1⟩ : ∃ e1, lookupStore st.store 1 = some e1 := by
        rcases hl : lookupStore st.store 1 with _ | e1
        · exact absurd hl (h1 hB1)
        · exact ⟨e1, rfl⟩
      have hs21 : lookupStore s2 1 = some e1 := by
        rw [hpt 1, if_neg (by rw [mem_range'_iff]; omega),
          lookupStore_storeSet_ne _ _ _ _ (by omega), he1]
      simp only [hs21]
      refine ⟨_, rfl, rfl, fun j => ?_⟩
      by_cases hj1 : j = 1
      · subst hj1
        rw [lookupStore_storeSet_self, if_pos rfl, if_neg hB1, he1]
      · rw [lookupStore_storeSet_ne _ _ _ _ hj1, hpt j, if_neg hj1]
        by_cases hjr : B ≤ j ∧ j ≤ t
        · rw [if_pos (by rw [mem_range'_iff]; omega), if_pos hjr]
        · rw [if_neg (by rw [mem_range'_iff]; omega), if_neg hjr]
          exact lookupStore_storeSet_ne _ _ _ _ (by omega)
  · intro hBmem hBnet
    have hmemB : ¬ memStore (storeSet st.store t ⟨t, 1, g.lap g.eps st.ctr⟩) B = true := by
      rw [memStore_iff, mem_storeKeys_iff_lookup,
        lookupStore_storeSet_ne _ _ _ _ hBnet]
      rw [ne_eq, lookupStore_eq_none_iff]
      simp [hBmem]
    rw [addNoise_sqrt, consolidateForSqrt]
    simp only [← hbseq, ← hBeq, START_TIME]
    rw [if_neg hmemB]

/-- Witness for C8: `T = 16` (block size 4), store after three unit
adds, fourth `add` completes the first block `[1, 4]`. -/
theorem sqrt_block_consolidation_witness :
    ((storeKeys ([(1, ⟨1, 1, 1⟩), (2, ⟨2, 1, 1⟩), (3, ⟨3, 1, 1⟩)] : Store)).Nodup ∧
      1 ≤ 4 ∧ 1 ≤ 4 + 1 - 4) ∧
    ((∀ k, 4 + 1 - 4 ≤ k → k < 4 →
        k ∈ storeKeys ([(1, ⟨1, 1, 1⟩), (2, ⟨2, 1, 1⟩), (3, ⟨3, 1, 1⟩)] : Store)) →
     (4 + 1 - 4 ≠ 1 →
        lookupStore ([(1, ⟨1, 1, 1⟩), (2, ⟨2, 1, 1⟩), (3, ⟨3, 1, 1⟩)] : Store) 1 ≠ none) →
     ∃ st2, addNoise constGen "sqrt" ⟨[(1, ⟨1, 1, 1⟩), (2, ⟨2, 1, 1⟩), (3, ⟨3, 1, 1⟩)], 3⟩ 4
        = some st2 ∧
       st2.ctr = 3 + 2 ∧
       ∀ j, lookupStore st2.store j =
         if j = 1 then
           some (if 4 + 1 - 4 = 1 then ⟨1, 4, constGen.lap (2 * constGen.eps) (3 + 1)⟩
             else
               match lookupStore
                 ([(1, ⟨1, 1, 1⟩), (2, ⟨2, 1, 1⟩), (3, ⟨3, 1, 1⟩)] : Store) 1 with
               | some e1 =>
                   ⟨1, e1.size + 4, e1.noise + constGen.lap (2 * constGen.eps) (3 + 1)⟩
               | none => ⟨1, 4, constGen.lap (2 * constGen.eps) (3 + 1)⟩)
         else if 4 + 1 - 4 ≤ j ∧ j ≤ 4 then none
         else lookupStore ([(1, ⟨1, 1, 1⟩), (2, ⟨2, 1, 1⟩), (3, ⟨3, 1, 1⟩)] : Store) j) := by
  refine ⟨⟨by decide, by decide, by decide⟩, ?_⟩
  exact (sqrt_block_consolidation constGen
    ⟨[(1, ⟨1, 1, 1⟩), (2, ⟨2, 1, 1⟩), (3, ⟨3, 1, 1⟩)], 3⟩ 4 4 (4 + 1 - 4)
    (by rw [show constGen.T = 16 from rfl]; exact Nat.eq_sqrt.2 (by decide)) rfl
    (by decide) (by decide) (by decide)).1

/-! ### C2: tree-strategy skeleton lemmas -/

theorem skelStore_zero (f : Nat → Int) (s : Nat) : skelStore f 0 s = [] := by
  rw [skelStore]
  simp

theorem skelStore_pos (f : Nat → Int) (n s : Nat) (hn : n ≠ 0) :
    skelStore f n s =
      (s, ⟨s, 2 ^ Nat.log2 n, f s⟩) ::
        skelStore f (n - 2 ^ Nat.log2 n) (s + 2 ^ Nat.log2 n) := by
  rw [skelStore]
  simp [hn]

theorem skelStore_entry_bounds (f : Nat → Int) :
    ∀ n s e, e ∈ skelStore f n s →
      s ≤ e.1 ∧ e.1 + e.2.size ≤ s + n ∧ e.2.start = e.1 ∧ 0 < e.2.size := by
  intro n
  induction n using Nat.strong_induction_on with
  | _ n ih =>
    intro s e he
    rcases Nat.eq_zero_or_pos n with hn | hn
    · rw [hn, skelStore_zero] at he
      simp at he
    · rw [skelStore_pos f n s (by omega)] at he
      have hple : 2 ^ Nat.log2 n ≤ n := Nat.log2_self_le (by omega)
      have hppos : 0 < 2 ^ Nat.log2 n := Nat.pos_pow_of_pos _ (by omega)
      rcases List.mem_cons.1 he with he | he
      · subst he
        refine ⟨le_rfl, by simp; omega, rfl, by simp only; exact hppos⟩
      · have hlt : n - 2 ^ Nat.log2 n < n := by omega
        obtain ⟨h1, h2, h3, h4⟩ := ih _ hlt (s + 2 ^ Nat.log2 n) e he
        exact ⟨by omega, by omega, h3, h4⟩

theorem skelStore_keys_bounds (f : Nat → Int) (n s k : Nat)
    (hk : k ∈ storeKeys (skelStore f n s)) : s ≤ k ∧ k < s + n := by
  obtain ⟨e, he, rfl⟩ := List.mem_map.1 hk
  obtain ⟨h1, h2, _, h4⟩ := skelStore_entry_bounds f n s e he
  exact ⟨h1, by omega⟩

theorem skelStore_sizes_dvd (f : Nat → Int) (d : Nat) :
    ∀ n s e, 2 ^ d ∣ n → e ∈ skelStore f n s → 2 ^ d ∣ e.2.size := by
  intro n
  induction n using Nat.strong_induction_on with
  | _ n ih =>
    intro s e hdvd he
    rcases Nat.eq_zero_or_pos n with hn | hn
    · rw [hn, skelStore_zero] at he
      simp at he
    · rw [skelStore_pos f n s (by omega)] at he
      have hple : 2 ^ Nat.log2 n ≤ n := Nat.log2_self_le (by omega)
      have hppos : 0 < 2 ^ Nat.log2 n := Nat.pos_pow_of_pos _ (by omega)
      have hdle : 2 ^ d ≤ n := le_trans (Nat.le_of_dvd hn hdvd) le_rfl
      have hdlog : d ≤ Nat.log2 n := (Nat.le_log2 (by omega)).2 (Nat.le_of_dvd hn hdvd)
      have hdvdp : 2 ^ d ∣ 2 ^ Nat.log2 n := pow_dvd_pow 2 hdlog
      rcases List.mem_cons.1 he with he | he
      · subst he
        simp only
        exact hdvdp
      · have hlt : n - 2 ^ Nat.log2 n < n := by omega
        exact ih _ hlt (s + 2 ^ Nat.log2 n) e ((Nat.dvd_sub' hdvd hdvdp)) he

theorem skelStore_congr (f f2 : Nat → Int) :
    ∀ n s, (∀ k, s ≤ k → k < s + n → f k = f2 k) →
      skelStore f n s = skelStore f2 n s := by
  intro n
  induction n using Nat.strong_induction_on with
  | _ n ih =>
    intro s hagree
    rcases Nat.eq_zero_or_pos n with hn | hn
    · rw [hn, skelStore_zero, skelStore_zero]
    · have hple : 2 ^ Nat.log2 n ≤ n := Nat.log2_self_le (by omega)
      have hppos : 0 < 2 ^ Nat.log2 n := Nat.pos_pow_of_pos _ (by omega)
      rw [skelStore_pos f n s (by omega), skelStore_pos f2 n s (by omega)]
      rw [hagree s le_rfl (by omega)]
      rw [ih (n - 2 ^ Nat.log2 n) (by omega) (s + 2 ^ Nat.log2 n)
        (fun k h1 h2 => hagree k (by omega) (by omega))]

theorem skelStore_two_pow (f : Nat → Int) (t s : Nat) :
    skelStore f (2 ^ t) s = [(s, ⟨s, 2 ^ t, f s⟩)] := by
  rw [skelStore_pos f (2 ^ t) s (by positivity), Nat.log2_two_pow]
  simp [skelStore_zero]

theorem skelStore_split (f : Nat → Int) (d : Nat) :
    ∀ m r s, 2 ^ d ∣ m → r < 2 ^ d →
      skelStore f (m + r) s = skelStore f m s ++ skelStore f r (s + m) := by
  intro m
  induction m using Nat.strong_induction_on with
  | _ m ih =>
    intro r s hdvd hr
    rcases Nat.eq_zero_or_pos m with hm | hm
    · rw [hm, skelStore_zero]
      simp
    · have hple : 2 ^ Nat.log2 m ≤ m := Nat.log2_self_le (by omega)
      have hplt : m < 2 ^ (Nat.log2 m + 1) := Nat.lt_log2_self
      have hppos : 0 < 2 ^ Nat.log2 m := Nat.pos_pow_of_pos _ (by omega)
      have hdlog : d ≤ Nat.log2 m := (Nat.le_log2 (by omega)).2 (Nat.le_of_dvd hm hdvd)
      have hdvdp : 2 ^ d ∣ 2 ^ Nat.log2 m := pow_dvd_pow 2 hdlog
      have hdvdp1 : 2 ^ d ∣ 2 ^ (Nat.log2 m + 1) := pow_dvd_pow 2 (by omega)
      -- m + 2^d ≤ 2^(log2 m + 1), as both are multiples of 2^d
      have hstep : m + 2 ^ d ≤ 2 ^ (Nat.log2 m + 1) := by
        obtain ⟨a, ha⟩ := hdvd
        obtain ⟨b, hb⟩ := hdvdp1
        have hab : a < b := by
          by_contra hab
          push_neg at hab
          have : 2 ^ d * b ≤ 2 ^ d * a := Nat.mul_le_mul_left _ hab
          omega
        have h1 : a + 1 ≤ b := hab
        have h2 := Nat.mul_le_mul_left (2 ^ d) h1
        have hexp : 2 ^ d * (a + 1) = 2 ^ d * a + 2 ^ d := by ring
        omega
      have hlog_eq : Nat.log2 (m + r) = Nat.log2 m := by
        have h1 : 2 ^ Nat.log2 m ≤ m + r := by omega
        have h2 : m + r < 2 ^ (Nat.log2 m + 1) := by omega
        have hle : Nat.log2 m ≤ Nat.log2 (m + r) :=
          (Nat.le_log2 (by omega)).2 h1
        have hlt : Nat.log2 (m + r) < Nat.log2 m + 1 :=
          (Nat.log2_lt (by omega)).2 h2
        omega
      rw [skelStore_pos f (m + r) s (by omega), skelStore_pos f m s (by omega),
        hlog_eq]
      rw [show m + r - 2 ^ Nat.log2 m = (m - 2 ^ Nat.log2 m) + r from by omega]
      rw [ih (m - 2 ^ Nat.log2 m) (by omega) r (s + 2 ^ Nat.log2 m)
        (Nat.dvd_sub' hdvd hdvdp) hr]
      simp only [List.cons_append]
      rw [show s + 2 ^ Nat.log2 m + (m - 2 ^ Nat.log2 m) = s + m from by omega]

theorem onesRun_keys (f : Nat → Int) :
    ∀ c lo a k, k ∈ storeKeys (onesRun f c lo a) →
      a ≤ k ∧ k + 2 ^ lo < a + 2 ^ (lo + c) := by
  intro c
  induction c with
  | zero => intro lo a k hk; simp [onesRun, storeKeys] at hk
  | succ c ih =>
    intro lo a k hk
    rw [onesRun] at hk
    have hpow : 2 ^ (lo + c) + 2 ^ (lo + c) = 2 ^ (lo + (c + 1)) := by
      rw [show lo + (c + 1) = (lo + c) + 1 from by omega, pow_succ]
      ring
    have hlo : 2 ^ lo ≤ 2 ^ (lo + c) := Nat.pow_le_pow_right (by omega) (by omega)
    have hlopos : 0 < 2 ^ lo := Nat.pos_pow_of_pos _ (by omega)
    rcases List.mem_cons.1 hk with hk | hk
    · subst hk
      constructor
      · exact le_rfl
      · omega
    · obtain ⟨h1, h2⟩ := ih lo (a + 2 ^ (lo + c)) k hk
      constructor
      · omega
      · omega

theorem onesRun_peel (f : Nat → Int) :
    ∀ c lo a, onesRun f (c + 1) lo a =
      onesRun f c (lo + 1) a ++
        [(a + 2 ^ (lo + c + 1) - 2 ^ (lo + 1),
          ⟨a + 2 ^ (lo + c + 1) - 2 ^ (lo + 1), 2 ^ lo,
            f (a + 2 ^ (lo + c + 1) - 2 ^ (lo + 1))⟩)] := by
  intro c
  induction c with
  | zero =>
    intro lo a
    have he : a + 2 ^ (lo + 0 + 1) - 2 ^ (lo + 1) = a := by
      rw [show lo + 0 + 1 = lo + 1 from by omega]
      omega
    rw [onesRun, onesRun, onesRun]
    rw [he]
    simp [show lo + 0 = lo from by omega]
  | succ c ih =>
    intro lo a
    have e1 : lo + 1 + c = lo + c + 1 := by omega
    rw [onesRun, ih lo (a + 2 ^ (lo + (c + 1)))]
    conv_rhs => rw [onesRun]
    rw [List.cons_append, e1]
    have enorm : lo + (c + 1) = lo + c + 1 := rfl
    simp only [enorm]
    have hq : 2 ^ (lo + 1) ≤ 2 ^ (lo + c + 1) := Nat.pow_le_pow_right (by omega) (by omega)
    have hp : 2 ^ (lo + c + 1 + 1) = 2 ^ (lo + c + 1) + 2 ^ (lo + c + 1) := by
      rw [pow_succ]
      ring
    have hpos : a + 2 ^ (lo + c + 1) + 2 ^ (lo + c + 1) - 2 ^ (lo + 1)
        = a + 2 ^ (lo + c + 1 + 1) - 2 ^ (lo + 1) := by
      omega
    rw [hpos]

theorem skelStore_ones (f : Nat → Int) :
    ∀ t a, skelStore f (2 ^ t - 1) a = onesRun f t 0 a := by
  intro t
  induction t with
  | zero =>
    intro a
    rw [show 2 ^ 0 - 1 = 0 from rfl, skelStore_zero, onesRun]
  | succ t ih =>
    intro a
    have hp : 2 ^ (t + 1) = 2 ^ t + 2 ^ t := by
      rw [pow_succ]
      ring
    have hpt : 0 < 2 ^ t := Nat.pos_pow_of_pos _ (by omega)
    have hlog : Nat.log2 (2 ^ (t + 1) - 1) = t := by
      have h1 : t ≤ Nat.log2 (2 ^ (t + 1) - 1) :=
        (Nat.le_log2 (by omega)).2 (by omega)
      have h2 : Nat.log2 (2 ^ (t + 1) - 1) < t + 1 :=
        (Nat.log2_lt (by omega)).2 (by omega)
      omega
    rw [skelStore_pos f (2 ^ (t + 1) - 1) a (by omega), hlog]
    rw [show 2 ^ (t + 1) - 1 - 2 ^ t = 2 ^ t - 1 from by omega]
    rw [ih (a + 2 ^ t), onesRun]
    rw [show (0 : Nat) + t = t from by omega]

theorem trailingOnes_spec :
    ∀ n, n % 2 ^ (trailingOnes n + 1) = 2 ^ (trailingOnes n) - 1 := by
  intro n
  induction n using Nat.strong_induction_on with
  | _ n ih =>
    rw [trailingOnes]
    by_cases hodd : n % 2 = 1
    · rw [if_pos hodd]
      have hn1 : 1 ≤ n := by omega
      have hlt : n / 2 < n := Nat.div_lt_self (by omega) (by omega)
      have hIH := ih (n / 2) hlt
      set t := trailingOnes (n / 2) with ht
      have hM : 0 < 2 ^ (t + 1) := Nat.pos_pow_of_pos _ (by omega)
      have hMM : 2 ^ (t + 1 + 1) = 2 ^ (t + 1) + 2 ^ (t + 1) := by
        rw [pow_succ]
        ring
      have hTT : 2 ^ (t + 1) = 2 ^ t + 2 ^ t := by
        rw [pow_succ]
        ring
      have htpos : 0 < 2 ^ t := Nat.pos_pow_of_pos _ (by omega)
      have hsplit := Nat.div_add_mod (n / 2) (2 ^ (t + 1))
      have hhalf : n = 2 * (n / 2) + 1 := by omega
      set Q := n / 2 / 2 ^ (t + 1) with hQ
      set r := 2 * ((n / 2) % 2 ^ (t + 1)) + 1 with hr
      have hn_eq : n = r + Q * 2 ^ (t + 1 + 1) := by
        rw [hr, hMM]
        have : 2 * (2 ^ (t + 1) * Q + (n / 2) % 2 ^ (t + 1)) + 1
            = 2 * ((n / 2) % 2 ^ (t + 1)) + 1 + Q * (2 ^ (t + 1) + 2 ^ (t + 1)) := by
          ring
        omega
      have hrlt : r < 2 ^ (t + 1 + 1) := by
        have : (n / 2) % 2 ^ (t + 1) < 2 ^ (t + 1) := Nat.mod_lt _ hM
        omega
      rw [hn_eq, Nat.add_mul_mod_self_right, Nat.mod_eq_of_lt hrlt]
      omega
    · rw [if_neg hodd]
      have : n % 2 < 2 := Nat.mod_lt _ (by omega)
      simp
      omega

theorem lookupStore_append_of_some (s1 s2 : Store) (k : Nat) (v : NoisePartialSum)
    (h : lookupStore s1 k = some v) : lookupStore (s1 ++ s2) k = some v := by
  induction s1 with
  | nil => simp [lookupStore] at h
  | cons e rest ih =>
    rcases e with ⟨k1, v1⟩
    by_cases h1 : k1 = k
    · show (if k1 = k then some v1 else lookupStore (rest ++ s2) k) = some v
      rw [if_pos h1]
      rw [show lookupStore ((k1, v1) :: rest) k = some v1 from by
        rw [lookupStore, if_pos h1]] at h
      exact h
    · show (if k1 = k then some v1 else lookupStore (rest ++ s2) k) = some v
      rw [if_neg h1]
      rw [lookupStore, if_neg h1] at h
      exact ih h

/-- The carry cascade of the tree consolidation: starting from a store
made of a left part `Q` (all keys below `A`), a maximal run of
equal-to-doubling sizes `2^(lo+c-1), ..., 2^lo` tiling `[A, b)`, and
the active block of size `2^lo` at `b = A + (2^(lo+c) - 2^lo)`, the
recursion merges the whole run into a single block of size `2^(lo+c)`
at `A` and stops against `Q` (whose entry at `A - 2^(lo+c)`, if any,
has a different size). -/
theorem cascadeTree (g : NoiseGenerator) (Q : Store) (f : Nat → Int) :
    ∀ c lo A x ctr fuel,
      c + 1 ≤ fuel →
      1 ≤ A →
      (∀ k, k ∈ storeKeys Q → k < A) →
      (∀ ps, lookupStore Q (A - 2 ^ (lo + c)) = some ps → ps.size ≠ 2 ^ (lo + c)) →
      ∃ x2 c2,
        consolidateForTree g fuel
          ⟨Q ++ onesRun f c lo A ++
            [(A + (2 ^ (lo + c) - 2 ^ lo),
              ⟨A + (2 ^ (lo + c) - 2 ^ lo), 2 ^ lo, x⟩)], ctr⟩
          (A + (2 ^ (lo + c) - 2 ^ lo))
        = some ⟨Q ++ [(A, ⟨A, 2 ^ (lo + c), x2⟩)], c2⟩ := by
  intro c
  induction c with
  | zero =>
    intro lo A x ctr fuel hfuel hA hQlt hstop
    obtain ⟨fz, rfl⟩ : ∃ fz, fuel = fz + 1 := ⟨fuel - 1, by omega⟩
    have hlopos : 0 < 2 ^ lo := Nat.pos_pow_of_pos _ (by omega)
    have hb : A + (2 ^ (lo + 0) - 2 ^ lo) = A := by
      rw [show lo + 0 = lo from rfl]
      omega
    rw [hb]
    rw [show onesRun f 0 lo A = [] from rfl]
    rw [List.append_nil]
    have hAQ : A ∉ storeKeys Q := fun hmem => by
      have := hQlt A hmem
      omega
    refine ⟨x, ctr, ?_⟩
    rw [consolidateForTree]
    rw [lookupStore_append_of_not_mem Q _ A hAQ, lookupStore_singleton_self]
    simp only
    have hprevlt : A - 2 ^ lo < A := by omega
    rcases hQp : lookupStore Q (A - 2 ^ lo) with _ | ps
    · have hprevnone : lookupStore (Q ++ [(A, ⟨A, 2 ^ lo, x⟩)]) (A - 2 ^ lo) = none := by
        rw [lookupStore_append_of_not_mem Q _ _ (by
          rw [mem_storeKeys_iff_lookup, hQp]
          simp)]
        exact lookupStore_singleton_ne A (A - 2 ^ lo) _ (by omega)
      rw [hprevnone]
      rw [show lo + 0 = lo from rfl]
    · have hprevsome : lookupStore (Q ++ [(A, ⟨A, 2 ^ lo, x⟩)]) (A - 2 ^ lo) = some ps :=
        lookupStore_append_of_some Q _ _ ps hQp
      rw [hprevsome]
      simp only
      have hps : ps.size ≠ 2 ^ (lo + 0) := hstop ps hQp
      rw [if_neg (by
        intro hh
        exact hps (by rw [show lo + 0 = lo from rfl, ← hh])), show lo + 0 = lo from rfl]
  | succ c ih =>
    intro lo A x ctr fuel hfuel hA hQlt hstop
    obtain ⟨fz, rfl⟩ : ∃ fz, fuel = fz + 1 := ⟨fuel - 1, by omega⟩
    have enorm : lo + (c + 1) = lo + c + 1 := rfl
    simp only [enorm] at hstop ⊢
    have hlopos : 0 < 2 ^ lo := Nat.pos_pow_of_pos _ (by omega)
    have hq1 : 2 ^ lo ≤ 2 ^ (lo + c + 1) := Nat.pow_le_pow_right (by omega) (by omega)
    have hq2 : 2 ^ (lo + 1) ≤ 2 ^ (lo + c + 1) := Nat.pow_le_pow_right (by omega) (by omega)
    have hq3 : 2 ^ (lo + 1) = 2 ^ lo + 2 ^ lo := by
      rw [pow_succ]
      ring
    set b := A + (2 ^ (lo + c + 1) - 2 ^ lo) with hbdef
    set d := A + 2 ^ (lo + c + 1) - 2 ^ (lo + 1) with hddef
    have hdb : d + 2 ^ lo = b := by omega
    have hdA : A ≤ d := by omega
    have hdltb : d < b := by omega
    have hAb : A ≤ b := by omega
    rw [onesRun_peel f c lo A]
    have hassoc : Q ++ (onesRun f c (lo + 1) A ++
          [(d, ⟨d, 2 ^ lo, f d⟩)]) ++ [(b, ⟨b, 2 ^ lo, x⟩)]
        = Q ++ (onesRun f c (lo + 1) A ++
          [(d, ⟨d, 2 ^ lo, f d⟩), (b, ⟨b, 2 ^ lo, x⟩)]) := by
      simp
    rw [hassoc]
    have hkeysOR : ∀ k, k ∈ storeKeys (onesRun f c (lo + 1) A) → k < d := by
      intro k hk
      obtain ⟨h1, h2⟩ := onesRun_keys f c (lo + 1) A k hk
      have : (lo + 1) + c = lo + c + 1 := by omega
      rw [this] at h2
      omega
    have hbQ : b ∉ storeKeys Q := fun hmem => by
      have := hQlt b hmem
      omega
    have hdQ : d ∉ storeKeys Q := fun hmem => by
      have := hQlt d hmem
      omega
    have hbOR : b ∉ storeKeys (onesRun f c (lo + 1) A) := fun hmem => by
      have := hkeysOR b hmem
      omega
    have hdOR : d ∉ storeKeys (onesRun f c (lo + 1) A) := fun hmem => by
      have := hkeysOR d hmem
      omega
    rw [consolidateForTree]
    rw [show lookupStore (Q ++ (onesRun f c (lo + 1) A ++
          [(d, ⟨d, 2 ^ lo, f d⟩), (b, ⟨b, 2 ^ lo, x⟩)])) b
        = some ⟨b, 2 ^ lo, x⟩ from by
      rw [lookupStore_append_of_not_mem Q _ b hbQ,
        lookupStore_append_of_not_mem _ _ b hbOR]
      rw [lookupStore, if_neg (by omega), lookupStore, if_pos rfl]]
    simp only
    rw [show (⟨b, 2 ^ lo, x⟩ : NoisePartialSum).start
        - (⟨b, 2 ^ lo, x⟩ : NoisePartialSum).size = d from by
      simp only
      omega]
    rw [show lookupStore (Q ++ (onesRun f c (lo + 1) A ++
          [(d, ⟨d, 2 ^ lo, f d⟩), (b, ⟨b, 2 ^ lo, x⟩)])) d
        = some ⟨d, 2 ^ lo, f d⟩ from by
      rw [lookupStore_append_of_not_mem Q _ d hdQ,
        lookupStore_append_of_not_mem _ _ d hdOR]
      rw [lookupStore, if_pos rfl]]
    simp only
    rw [if_pos trivial]
    have hsetstep : storeSet (Q ++ (onesRun f c (lo + 1) A ++
          [(d, ⟨d, 2 ^ lo, f d⟩), (b, ⟨b, 2 ^ lo, x⟩)])) d
          ⟨d, 2 ^ lo * 2, g.tree g.eps g.delta g.T ctr⟩
        = Q ++ (onesRun f c (lo + 1) A ++
          [(d, ⟨d, 2 ^ lo * 2, g.tree g.eps g.delta g.T ctr⟩), (b, ⟨b, 2 ^ lo, x⟩)]) := by
      rw [storeSet_append_of_not_mem Q _ d _ hdQ,
        storeSet_append_of_not_mem _ _ d _ hdOR]
      rw [storeSet, if_pos rfl]
    rw [hsetstep]
    have hdelstep : storeDel (Q ++ (onesRun f c (lo + 1) A ++
          [(d, ⟨d, 2 ^ lo * 2, g.tree g.eps g.delta g.T ctr⟩), (b, ⟨b, 2 ^ lo, x⟩)])) b
        = Q ++ (onesRun f c (lo + 1) A ++
          [(d, ⟨d, 2 ^ lo * 2, g.tree g.eps g.delta g.T ctr⟩)]) := by
      rw [storeDel_append_of_not_mem Q _ b hbQ,
        storeDel_append_of_not_mem _ _ b hbOR]
      rw [storeDel, if_neg (by omega), storeDel, if_pos rfl]
    rw [hdelstep]
    have hsz : 2 ^ lo * 2 = 2 ^ (lo + 1) := by
      rw [pow_succ]
    rw [hsz]
    have hd_eq : A + (2 ^ ((lo + 1) + c) - 2 ^ (lo + 1)) = d := by
      rw [show (lo + 1) + c = lo + c + 1 from by omega]
      omega
    have happly := ih (lo + 1) A (g.tree g.eps g.delta g.T ctr) (ctr + 1) fz
      (by omega) hA hQlt
      (by
        rw [show (lo + 1) + c = lo + c + 1 from by omega]
        exact hstop)
    rw [hd_eq] at happly
    obtain ⟨x2, c2, happly⟩ := happly
    refine ⟨x2, c2, ?_⟩
    rw [show Q ++ onesRun f c (lo + 1) A ++
          [(d, ⟨d, 2 ^ (lo + 1), g.tree g.eps g.delta g.T ctr⟩)]
        = Q ++ (onesRun f c (lo + 1) A ++
          [(d, ⟨d, 2 ^ (lo + 1), g.tree g.eps g.delta g.T ctr⟩)]) from by
      simp] at happly
    rw [happly]
    rw [show (lo + 1) + c = lo + c + 1 from by omega]

theorem onesRun_length (f : Nat → Int) :
    ∀ c lo a, (onesRun f c lo a).length = c := by
  intro c
  induction c with
  | zero => intro lo a; rfl
  | succ c ih =>
    intro lo a
    rw [onesRun]
    simp [ih]

theorem lookupStore_mem (s : Store) (k : Nat) (v : NoisePartialSum)
    (h : lookupStore s k = some v) : (k, v) ∈ s := by
  induction s with
  | nil => simp [lookupStore] at h
  | cons e rest ih =>
    rcases e with ⟨k1, v1⟩
    rw [lookupStore] at h
    by_cases h1 : k1 = k
    · rw [if_pos h1] at h
      subst h1
      simp at h
      subst h
      simp
    · rw [if_neg h1] at h
      exact List.mem_cons_of_mem _ (ih h)

/-- After `n` sequential tree-strategy adds the store is exactly the
binary-decomposition skeleton of `n` (for some assignment of noise
values to block starts and some draw count). -/
theorem runAdds_tree_skel (g : NoiseGenerator) :
    ∀ n, ∃ f c, runAdds g "tree" n = some ⟨skelStore f n 1, c⟩ := by
  intro n
  induction n with
  | zero =>
    exact ⟨fun _ => 0, 0, by rw [runAdds, skelStore_zero]⟩
  | succ n ih =>
    obtain ⟨f, c, hrun⟩ := ih
    rw [runAdds, hrun, Option.some_bind, addNoise_tree]
    simp only
    set t := trailingOnes n with htdef
    have hspec : n % 2 ^ (t + 1) = 2 ^ t - 1 := trailingOnes_spec n
    have hp1 : 0 < 2 ^ t := Nat.pos_pow_of_pos _ (by omega)
    have hp2 : 2 ^ (t + 1) = 2 ^ t + 2 ^ t := by
      rw [pow_succ]
      ring
    have hge : 2 ^ t - 1 ≤ n := by
      have := Nat.mod_le n (2 ^ (t + 1))
      omega
    set M := n + 1 - 2 ^ t with hMdef
    have hMn : M + (2 ^ t - 1) = n := by omega
    have hdvd : 2 ^ (t + 1) ∣ M := by
      have hsplit := Nat.div_add_mod n (2 ^ (t + 1))
      exact ⟨n / 2 ^ (t + 1), by omega⟩
    have hskel_split : skelStore f n 1
        = skelStore f M 1 ++ onesRun f t 0 (1 + M) := by
      conv_lhs => rw [← hMn]
      rw [skelStore_split f (t + 1) M (2 ^ t - 1) 1 hdvd (by omega)]
      rw [skelStore_ones f t (1 + M)]
    have hnotmem : (n + 1) ∉ storeKeys (skelStore f n 1) := by
      intro hmem
      have := skelStore_keys_bounds f n 1 _ hmem
      omega
    rw [storeSet_of_not_mem _ _ _ hnotmem, hskel_split]
    have hQlt : ∀ k, k ∈ storeKeys (skelStore f M 1) → k < 1 + M := by
      intro k hk
      have := skelStore_keys_bounds f M 1 k hk
      omega
    have hstop : ∀ ps, lookupStore (skelStore f M 1) (1 + M - 2 ^ (0 + t)) = some ps →
        ps.size ≠ 2 ^ (0 + t) := by
      intro ps hps
      have hmem := lookupStore_mem _ _ _ hps
      have hdvdsz : 2 ^ (t + 1) ∣ ps.size :=
        skelStore_sizes_dvd f (t + 1) M 1 _ hdvd hmem
      have hpos : 0 < ps.size :=
        (skelStore_entry_bounds f M 1 _ hmem).2.2.2
      have hle : 2 ^ (t + 1) ≤ ps.size := Nat.le_of_dvd hpos hdvdsz
      intro hcontra
      rw [show (0 : Nat) + t = t from by omega] at hcontra
      omega
    have hcas := cascadeTree g (skelStore f M 1) f t 0 (1 + M)
      (g.tree g.eps g.delta g.T c) (c + 1)
      ((skelStore f M 1 ++ onesRun f t 0 (1 + M) ++
        [((n + 1 : Nat), (⟨n + 1, 1, g.tree g.eps g.delta g.T c⟩ : NoisePartialSum))]).length
        + 1)
      (by simp [onesRun_length]; omega) (by omega) hQlt hstop
    simp only [pow_zero, Nat.zero_add] at hcas
    rw [show 1 + M + (2 ^ t - 1) = n + 1 from by omega] at hcas
    obtain ⟨x2, c2, hcas⟩ := hcas
    refine ⟨fun k => if k = 1 + M then x2 else f k, c2, ?_⟩
    rw [hcas]
    have hsplit2 : skelStore (fun k => if k = 1 + M then x2 else f k) (n + 1) 1
        = skelStore (fun k => if k = 1 + M then x2 else f k) M 1
          ++ [(1 + M, ⟨1 + M, 2 ^ t, x2⟩)] := by
      conv_lhs => rw [show n + 1 = M + 2 ^ t from by omega]
      rw [skelStore_split _ (t + 1) M (2 ^ t) 1 hdvd (by omega)]
      rw [skelStore_two_pow]
      simp
    have hQQ : skelStore (fun k => if k = 1 + M then x2 else f k) M 1
        = skelStore f M 1 := by
      apply skelStore_congr
      intro k h1 h2
      rw [if_neg (by omega)]
    rw [hsplit2, hQQ]

theorem skel_sizes_binary (f : Nat → Int) :
    ∀ n s, ((skelStore f n s).map fun e => e.2.size).Nodup ∧
      ∀ p, p ∈ (skelStore f n s).map (fun e => e.2.size) ↔
        ∃ i, n.testBit i = true ∧ p = 2 ^ i := by
  intro n
  induction n using Nat.strong_induction_on with
  | _ n ih =>
    intro s
    rcases Nat.eq_zero_or_pos n with hn | hn
    · subst hn
      rw [skelStore_zero]
      constructor
      · simp
      · intro p
        simp [Nat.zero_testBit]
    · rw [skelStore_pos f n s (by omega)]
      set L := Nat.log2 n with hL
      have hple : 2 ^ L ≤ n := Nat.log2_self_le (by omega)
      have hplt : n < 2 ^ (L + 1) := Nat.lt_log2_self
      have hp2 : 2 ^ (L + 1) = 2 ^ L + 2 ^ L := by
        rw [pow_succ]
        ring
      set m2 := n - 2 ^ L with hm2
      have hm2lt : m2 < 2 ^ L := by omega
      have hneq : n = 2 ^ L + m2 := by omega
      have htbL : n.testBit L = true := by
        rw [hneq, Nat.testBit_two_pow_add_eq, Nat.testBit_lt_two_pow hm2lt]
        rfl
      have htblt : ∀ i, i < L → n.testBit i = m2.testBit i := by
        intro i hi
        rw [hneq]
        exact Nat.testBit_two_pow_add_gt hi m2
      have htbgt : ∀ i, L < i → n.testBit i = false := by
        intro i hi
        apply Nat.testBit_lt_two_pow
        calc n < 2 ^ (L + 1) := hplt
        _ ≤ 2 ^ i := Nat.pow_le_pow_right (by omega) (by omega)
      have hm2gt : ∀ i, L ≤ i → m2.testBit i = false := by
        intro i hi
        apply Nat.testBit_lt_two_pow
        exact lt_of_lt_of_le hm2lt (Nat.pow_le_pow_right (by omega) hi)
      obtain ⟨ihnd, ihmem⟩ := ih m2 (by omega) (s + 2 ^ L)
      constructor
      · rw [List.map_cons, List.nodup_cons]
        refine ⟨?_, ihnd⟩
        intro hmem
        obtain ⟨i, hbit, hpi⟩ := (ihmem _).1 hmem
        have hiL : i < L := by
          by_contra hcon
          push_neg at hcon
          rw [hm2gt i hcon] at hbit
          simp at hbit
        have hlt : (2 : Nat) ^ i < 2 ^ L := Nat.pow_lt_pow_right (by omega) hiL
        simp only at hpi
        omega
      · intro p
        rw [List.map_cons, List.mem_cons, ihmem p]
        simp only
        constructor
        · rintro (rfl | ⟨i, hbit, rfl⟩)
          · exact ⟨L, htbL, rfl⟩
          · refine ⟨i, ?_, rfl⟩
            have hiL : i < L := by
              by_contra hcon
              push_neg at hcon
              rw [hm2gt i hcon] at hbit
              simp at hbit
            rw [htblt i hiL]
            exact hbit
        · rintro ⟨i, hbit, rfl⟩
          by_cases hiL : i = L
          · subst hiL
            exact Or.inl rfl
          · right
            rcases Nat.lt_or_ge i L with hlt | hge2
            · exact ⟨i, by rw [← htblt i hlt]; exact hbit, rfl⟩
            · have hgt : L < i := by omega
              rw [htbgt i hgt] at hbit
              simp at hbit

/-- C2: under the Tree strategy, for every `n ≥ 1`, after `n`
sequential `add` calls at times `1..n` the multiset of stored
partial-sum sizes is exactly the set of distinct powers of two in the
binary representation of `n`: the size list has no duplicates and a
size `p` occurs iff `p = 2^i` for some set bit `i` of `n`. -/
theorem tree_sizes_binary_decomposition (g : NoiseGenerator) (n : Nat)
    (_hn : 1 ≤ n) :
    ∃ st, runAdds g "tree" n = some st ∧
      (st.store.map fun e => e.2.size).Nodup ∧
      ∀ p, p ∈ st.store.map (fun e => e.2.size) ↔
        ∃ i, n.testBit i = true ∧ p = 2 ^ i := by
  obtain ⟨f, c, hrun⟩ := runAdds_tree_skel g n
  obtain ⟨hnd, hmem⟩ := skel_sizes_binary f n 1
  exact ⟨⟨skelStore f n 1, c⟩, hrun, hnd, hmem⟩

/-- Witness for C2 at `n = 6` with the constant-1 sampler. -/
theorem tree_sizes_binary_decomposition_witness :
    1 ≤ 6 ∧
    ∃ st, runAdds constGen "tree" 6 = some st ∧
      (st.store.map fun e => e.2.size).Nodup ∧
      ∀ p, p ∈ st.store.map (fun e => e.2.size) ↔
        ∃ i, Nat.testBit 6 i = true ∧ p = 2 ^ i :=
  ⟨by decide, tree_sizes_binary_decomposition constGen 6 (by decide)⟩
